import Mathlib

/-!
Verification of the FlashMemo memory capture / batch reconciliation app.

The development shallowly embeds the relevant TypeScript source:
  - `types.ts`: the `Memory` record, `MetaTags`, and the status union;
  - `storageService.ts`: `getMemories` / `saveMemory` / `updateMemory` /
    `clearMemories`, modelling the local-storage blob as the parsed list of
    records (an absent blob is the empty list);
  - `geminiService.ts`: `generateSuggestions` with the remote model call
    abstracted into an oracle, and the static suggestion lists;
  - `App.tsx`: `handleBatchProcess` (the batch reconciliation workflow, with
    the single `alert` in its catch modelled as an alert counter and the
    sequence of `analyzeInput` submissions recorded as `calls`),
    `processedMemories`, and the argument handed to `semanticSearch`;
  - `CaptureBar.tsx`: `handleTextSubmit`.

The extraction client `analyzeInput` and the remote LLM endpoint perform
network I/O; they are abstracted as oracles (`ExtractClient`,
`SuggestClient`) whose `none` / `throws` outcome models the rejected
promise of a failed call.
-/

namespace FlashMemo

/-- Status union from types.ts: the optional field is `'pending' | 'processed'`. -/
inductive Status where
  | pending
  | processed
  deriving DecidableEq

/-- MetaTags from types.ts: one optional string list per entity dimension
(Action, Object, People, Location, Time). An absent key is `none`; the empty
object `{}` written at capture time has every key absent. -/
structure MetaTags where
  action : Option (List String) := none
  object : Option (List String) := none
  people : Option (List String) := none
  location : Option (List String) := none
  time : Option (List String) := none
  deriving DecidableEq

/-- Memory record from types.ts. `status`, `audioData` and `mimeType` are
optional fields of the interface. -/
structure Memory where
  id : String
  rawContent : String
  processedContent : String
  timestamp : Int
  tags : MetaTags
  status : Option Status := none
  audioData : Option String := none
  mimeType : Option String := none
  deriving DecidableEq

/-- The backwards-compatibility spread in storageService.getMemories:
`{ ...m, status: m.status || 'processed' }`. -/
def normalizeStatus (m : Memory) : Memory :=
  { m with status := some (m.status.getD Status.processed) }

/-- storageService.getMemories: parse the blob and default every missing
status to processed. The store argument is the parsed collection. -/
def getMemories (store : List Memory) : List Memory :=
  store.map normalizeStatus

/-- storageService.saveMemory: `[memory, ...getMemories()]` written back. -/
def saveMemory (store : List Memory) (memory : Memory) : List Memory :=
  memory :: getMemories store

/-- storageService.updateMemory: findIndex on the freshly read collection by
id; when found, overwrite that slot and write the collection back; when not
found (`index === -1`) nothing is written. -/
def updateMemory (store : List Memory) (memory : Memory) : List Memory :=
  let current := getMemories store
  match current.findIdx? (fun m => m.id == memory.id) with
  | some index => current.set index memory
  | none => store

/-- storageService.clearMemories: the key is removed, so a later read parses
no blob and yields the empty collection. -/
def clearMemories (_store : List Memory) : List Memory := []

/-- Result shape of the Metadata Extraction Client (analyzeInput):
`{ processedContent, tags }`. -/
structure ExtractResult where
  processedContent : String
  tags : MetaTags
  deriving DecidableEq

/-- Input shape of analyzeInput: a plain string or an audio payload, plus
the context date built from the stored timestamp. -/
inductive ExtractInput where
  | text (content : String) (contextDate : Int)
  | audio (mimeType : String) (data : String) (contextDate : Int)
  deriving DecidableEq

/-- The extraction client as an oracle; `none` models the rejected promise
of a failed or unparseable remote call. -/
abbrev ExtractClient := ExtractInput → Option ExtractResult

/-- The payload handleBatchProcess submits for one memory: the truthiness
test `mem.audioData && mem.mimeType` selects the audio call, otherwise the
raw content is sent (empty strings are falsy in the source). -/
def extractInputFor (mem : Memory) : ExtractInput :=
  match mem.audioData, mem.mimeType with
  | some d, some mt =>
    if d ≠ "" ∧ mt ≠ "" then ExtractInput.audio mt d mem.timestamp
    else ExtractInput.text mem.rawContent mem.timestamp
  | _, _ => ExtractInput.text mem.rawContent mem.timestamp

/-- The `updatedMem` record built in handleBatchProcess: spread of the old
record with processedContent, tags and status replaced. -/
def reconcileWith (mem : Memory) (result : ExtractResult) : Memory :=
  { mem with
      processedContent := result.processedContent,
      tags := result.tags,
      status := some Status.processed }

/-- One iteration of the batch loop for a given memory: call the extraction
client and, on success, build `updatedMem`. -/
def reconcileOne (extract : ExtractClient) (mem : Memory) : Option Memory :=
  (extract (extractInputFor mem)).map (reconcileWith mem)

/-- Observable outcome of one handleBatchProcess invocation: the persisted
collection, the number of user-facing failure alerts raised, and the
sequence of memories submitted to the extraction client. -/
structure BatchResult where
  store : List Memory
  alerts : Nat
  calls : List Memory
  deriving DecidableEq

/-- The selection `memories.filter(m => m.status === 'pending')`. -/
def pendingFilter (memories : List Memory) : List Memory :=
  memories.filter (fun m => decide (m.status = some Status.pending))

/-- The `for (const mem of pending)` loop of handleBatchProcess: each
success is persisted through updateMemory; the first failure escapes to the
single catch, which raises one alert and ends the run. -/
def processPendingLoop (extract : ExtractClient) :
    List Memory → List Memory → BatchResult
  | [], store => ⟨store, 0, []⟩
  | mem :: rest, store =>
    match reconcileOne extract mem with
    | none => ⟨store, 1, [mem]⟩
    | some updated =>
      let r := processPendingLoop extract rest (updateMemory store updated)
      ⟨r.store, r.alerts, mem :: r.calls⟩

/-- App.handleBatchProcess: filter the pending records from the in-memory
collection, return immediately when none, otherwise run the loop against
the store (the same collection the state was loaded from). -/
def handleBatchProcess (extract : ExtractClient) (memories : List Memory) :
    BatchResult :=
  let pending := pendingFilter memories
  if pending.isEmpty then ⟨memories, 0, []⟩
  else processPendingLoop extract pending memories

/-- The store produced by persisting the successful reconciliations of a
list of memories in order (the loop with the abort stripped away). -/
def foldUpdates (extract : ExtractClient) (store : List Memory)
    (mems : List Memory) : List Memory :=
  mems.foldl
    (fun st mem =>
      match reconcileOne extract mem with
      | some updated => updateMemory st updated
      | none => st)
    store

/-- JS String.prototype.trim, modelled on the character list (the library
trim of Lean is defined by well-founded recursion and does not evaluate
inside the kernel). -/
def jsTrim (s : String) : String :=
  String.mk
    (((s.data.dropWhile Char.isWhitespace).reverse.dropWhile
      Char.isWhitespace).reverse)

/-- CaptureBar.handleTextSubmit: blank input (`!text.trim()`) is ignored;
otherwise the text is saved instantly as a pending record with empty tags
and processedContent equal to the raw text. -/
def handleTextSubmit (text : String) (newId : String) (timestamp : Int)
    (store : List Memory) : List Memory :=
  if jsTrim text = "" then store
  else
    saveMemory store
      { id := newId, rawContent := text, processedContent := text,
        timestamp := timestamp, tags := {}, status := some Status.pending }

/-- App.processedMemories: `memories.filter(m => m.status === 'processed')`. -/
def processedMemories (memories : List Memory) : List Memory :=
  memories.filter (fun m => decide (m.status = some Status.processed))

/-- App.handleSearch: a blank query clears the view and performs no search;
otherwise semanticSearch receives the query and processedMemories. The
result is the argument pair handed to the Semantic Retrieval Client. -/
def handleSearchCall (text : String) (memories : List Memory) :
    Option (String × List Memory) :=
  if jsTrim text = "" then none
  else some (text, processedMemories memories)

/-- Outcome of the remote suggestion call: a rejected promise, a response
with no text, or a parsed string list. -/
inductive SuggestOutcome where
  | throws
  | noText
  | ok (strs : List String)

/-- The suggestion endpoint as an oracle over the memory list it is shown. -/
abbrev SuggestClient := List Memory → SuggestOutcome

/-- The static list returned by generateSuggestions when no memories exist. -/
def staticSuggestions : List String :=
  ["我最近买了什么？", "昨天我见了谁？", "显示我的待办事项"]

/-- geminiService.generateSuggestions: on an empty list the static trio is
returned without touching the network; otherwise the ten most recent
memories (`memories.slice(0, 10)`) are sent to the model. The second
component records the list handed to the remote endpoint (`none` when it
was never invoked). A thrown call is an error (rejected promise); a
response without text yields the empty list. -/
def generateSuggestions (llm : SuggestClient) (memories : List Memory) :
    Except Unit (List String) × Option (List Memory) :=
  if memories.length = 0 then (Except.ok staticSuggestions, none)
  else
    let recent := memories.take 10
    match llm recent with
    | SuggestOutcome.throws => (Except.error (), some recent)
    | SuggestOutcome.noText => (Except.ok [], some recent)
    | SuggestOutcome.ok strs => (Except.ok strs, some recent)

/-- The catch handler of SmartSuggestions.useEffect: three generic
suggestions shown when the suggestion promise rejects. -/
def fallbackSuggestions : List String :=
  ["我今天做了什么？", "显示我提到的人", "查看最近的购物"]

/-- SmartSuggestions.useEffect: only a non-empty memory list triggers the
call; a rejection falls back to the static trio instead of surfacing an
error; with no memories the suggestion state stays empty. -/
def smartSuggestionsLoad (llm : SuggestClient) (memories : List Memory) :
    List String :=
  if memories.length > 0 then
    match (generateSuggestions llm memories).1 with
    | Except.ok strs => strs
    | Except.error _ => fallbackSuggestions
  else []

/-- The composite suggestion path of App: SmartSuggestions receives
processedMemories, and generateSuggestions takes it from there. -/
def appSuggestionCall (llm : SuggestClient) (memories : List Memory) :
    Except Unit (List String) × Option (List Memory) :=
  generateSuggestions llm (processedMemories memories)

/-- Replace the first record whose id equals the id of the argument; leave
every other record untouched in place; change nothing when the id is
absent. This is the update effect the spec describes for updateById. -/
def replaceFirstById (l : List Memory) (m : Memory) : List Memory :=
  match l with
  | [] => []
  | r :: rs => if r.id = m.id then m :: rs else r :: replaceFirstById rs m

/-- A call against the Persistence Adapter. -/
inductive StoreOp where
  | insert (m : Memory)
  | updateById (m : Memory)
  | clearAll

/-- Run one adapter call of the source against the stored blob. -/
def applyOp (store : List Memory) : StoreOp → List Memory
  | StoreOp.insert m => saveMemory store m
  | StoreOp.updateById m => updateMemory store m
  | StoreOp.clearAll => clearMemories store

/-- Run a sequence of adapter calls of the source in order. -/
def applyOps (store : List Memory) (ops : List StoreOp) : List Memory :=
  ops.foldl applyOp store

/-- Specified effect of one call, following the spec text: insert prepends
the record, updateById fully replaces the record with the matching id
(no-op if the id is absent), clearAll empties the collection. -/
def specApplyOp (c : List Memory) : StoreOp → List Memory
  | StoreOp.insert m => m :: c
  | StoreOp.updateById m => replaceFirstById c m
  | StoreOp.clearAll => []

/-- Specified effects of a call sequence, applied in order. -/
def specApplyOps (c : List Memory) (ops : List StoreOp) : List Memory :=
  ops.foldl specApplyOp c

/-- The read rule of the spec for getAll: records missing `status` are
treated as processed on read. -/
def specRead (c : List Memory) : List Memory :=
  c.map (fun m => { m with status := some (m.status.getD Status.processed) })

/-- Every record of the list carries an explicit status, as is the case for
any collection obtained from getMemories. -/
def allStatusSome (l : List Memory) : Prop :=
  ∀ r ∈ l, r.status.isSome = true

lemma normalizeStatus_idem (m : Memory) :
    normalizeStatus (normalizeStatus m) = normalizeStatus m := by
  cases m with
  | mk id raw proc ts tags st audio mime => cases st <;> rfl

lemma normalizeStatus_id (m : Memory) : (normalizeStatus m).id = m.id := rfl

lemma normalizeStatus_isSome (m : Memory) :
    (normalizeStatus m).status.isSome = true := rfl

lemma normalizeStatus_of_isSome {m : Memory} (h : m.status.isSome = true) :
    normalizeStatus m = m := by
  obtain ⟨s, hs⟩ := Option.isSome_iff_exists.mp h
  cases m
  simp_all [normalizeStatus]

lemma getMemories_idem (store : List Memory) :
    getMemories (getMemories store) = getMemories store := by
  simp [getMemories, List.map_map, Function.comp_def, normalizeStatus_idem]

lemma getMemories_eq_self {store : List Memory} (h : allStatusSome store) :
    getMemories store = store := by
  induction store with
  | nil => rfl
  | cons a l ih =>
    have ha : a.status.isSome = true := h a (by simp)
    have hl : allStatusSome l := fun r hr => h r (by simp [hr])
    simp [getMemories] at ih ⊢
    exact ⟨normalizeStatus_of_isSome ha, ih hl⟩

lemma allStatusSome_getMemories (store : List Memory) :
    allStatusSome (getMemories store) := by
  intro r hr
  obtain ⟨m, _, rfl⟩ := List.mem_map.mp hr
  exact normalizeStatus_isSome m

lemma getMemories_map_id (store : List Memory) :
    (getMemories store).map Memory.id = store.map Memory.id := by
  simp [getMemories, List.map_map, Function.comp_def, normalizeStatus_id]

lemma replaceFirstById_of_no_match {l : List Memory} {m : Memory}
    (h : ∀ r ∈ l, r.id ≠ m.id) : replaceFirstById l m = l := by
  induction l with
  | nil => rfl
  | cons r rs ih =>
    have hr : r.id ≠ m.id := h r (by simp)
    simp [replaceFirstById, hr]
    exact ih fun x hx => h x (by simp [hx])

lemma replaceFirstById_map {f : Memory → Memory}
    (hf : ∀ x, (f x).id = x.id) (l : List Memory) (m : Memory) :
    (replaceFirstById l m).map f = replaceFirstById (l.map f) (f m) := by
  induction l with
  | nil => rfl
  | cons r rs ih =>
    by_cases hr : r.id = m.id
    · simp [replaceFirstById, hr, hf]
    · have : ¬ (f r).id = (f m).id := by simp [hf, hr]
      simp [replaceFirstById, hr, this, ih]

lemma replaceFirstById_map_id (l : List Memory) (m : Memory) :
    (replaceFirstById l m).map Memory.id = l.map Memory.id := by
  induction l with
  | nil => rfl
  | cons r rs ih =>
    by_cases hr : r.id = m.id
    · simp [replaceFirstById, hr]
    · simp [replaceFirstById, hr, ih]

lemma replaceFirstById_mem_of_ne {l : List Memory} {r m : Memory}
    (hr : r ∈ l) (hne : r.id ≠ m.id) : r ∈ replaceFirstById l m := by
  induction l with
  | nil => simp at hr
  | cons a rs ih =>
    by_cases ha : a.id = m.id
    · rcases List.mem_cons.mp hr with rfl | htl
      · exact absurd ha hne
      · simp [replaceFirstById, ha, htl]
    · rcases List.mem_cons.mp hr with rfl | htl
      · simp [replaceFirstById, ha]
      · simp [replaceFirstById, ha]
        exact Or.inr (ih htl)

lemma replaceFirstById_self_mem {l : List Memory} {m : Memory}
    (h : m.id ∈ l.map Memory.id) : m ∈ replaceFirstById l m := by
  induction l with
  | nil => simp at h
  | cons a rs ih =>
    by_cases ha : a.id = m.id
    · simp [replaceFirstById, ha]
    · have : m.id ∈ rs.map Memory.id := by
        rcases List.mem_map.mp h with ⟨x, hx, hxid⟩
        rcases List.mem_cons.mp hx with rfl | htl
        · exact absurd hxid ha
        · exact List.mem_map.mpr ⟨x, htl, hxid⟩
      simp [replaceFirstById, ha]
      exact Or.inr (ih this)

lemma set_findIdx_eq_replaceFirstById {l : List Memory} {mid : String}
    {i : Nat} {x : Memory} (hx : x.id = mid)
    (h : l.findIdx? (fun r => r.id == mid) = some i) :
    l.set i x = replaceFirstById l x := by
  induction l generalizing i with
  | nil => simp [List.findIdx?] at h
  | cons r rs ih =>
    rw [List.findIdx?_cons] at h
    by_cases hr : r.id = mid
    · simp [hr] at h
      subst h
      simp [List.set, replaceFirstById, hr, hx]
    · simp [hr, List.findIdx?_succ] at h
      obtain ⟨j, hj, hij⟩ := h
      subst hij
      have hrx : ¬ r.id = x.id := by simp [hx, hr]
      simp [List.set, replaceFirstById, hrx]
      exact ih hj

lemma updateMemory_eq_match (store : List Memory) (m : Memory) :
    updateMemory store m =
      match (getMemories store).findIdx? (fun r => r.id == m.id) with
      | some index => (getMemories store).set index m
      | none => store := rfl

lemma getMemories_updateMemory_gen (store : List Memory) (m : Memory) :
    getMemories (updateMemory store m) =
      replaceFirstById (getMemories store) (normalizeStatus m) := by
  rw [updateMemory_eq_match]
  cases h : (getMemories store).findIdx? (fun r => r.id == m.id) with
  | none =>
    have hno : ∀ r ∈ getMemories store, r.id ≠ m.id := by
      intro r hr
      have := List.findIdx?_eq_none_iff.mp h r hr
      simpa using this
    show getMemories store = _
    rw [replaceFirstById_of_no_match]
    intro r hr
    simpa [normalizeStatus_id] using hno r hr
  | some i =>
    show getMemories ((getMemories store).set i m) = _
    have hset : getMemories ((getMemories store).set i m) =
        (getMemories store).set i (normalizeStatus m) := by
      rw [getMemories, List.map_set, ← getMemories, getMemories_idem]
    rw [hset]
    have hidx : (getMemories store).findIdx?
        (fun r => r.id == (normalizeStatus m).id) = some i := by
      simpa [normalizeStatus_id] using h
    exact set_findIdx_eq_replaceFirstById (normalizeStatus_id m) hidx

lemma getMemories_updateMemory {store : List Memory} {m : Memory}
    (hm : m.status.isSome = true) :
    getMemories (updateMemory store m) =
      replaceFirstById (getMemories store) m := by
  rw [getMemories_updateMemory_gen, normalizeStatus_of_isSome hm]

lemma updateMemory_eq_replaceFirstById {store : List Memory} (m : Memory)
    (h : allStatusSome store) :
    updateMemory store m = replaceFirstById store m := by
  rw [updateMemory_eq_match, getMemories_eq_self h]
  cases hidx : store.findIdx? (fun r => r.id == m.id) with
  | none =>
    show store = _
    rw [replaceFirstById_of_no_match]
    intro r hr
    have := List.findIdx?_eq_none_iff.mp hidx r hr
    simpa using this
  | some i =>
    show store.set i m = _
    exact set_findIdx_eq_replaceFirstById rfl hidx

lemma updateMemory_no_match {store : List Memory} {m : Memory}
    (h : ∀ r ∈ store, r.id ≠ m.id) : updateMemory store m = store := by
  rw [updateMemory_eq_match]
  have hidx : (getMemories store).findIdx? (fun r => r.id == m.id) = none := by
    rw [List.findIdx?_eq_none_iff]
    intro r hr
    obtain ⟨r0, hr0, rfl⟩ := List.mem_map.mp hr
    simpa [normalizeStatus_id] using h r0 hr0
  rw [hidx]

lemma replaceFirstById_mem_cases {l : List Memory} {r m : Memory}
    (h : r ∈ replaceFirstById l m) : r ∈ l ∨ r = m := by
  induction l with
  | nil => simp [replaceFirstById] at h
  | cons a rs ih =>
    by_cases ha : a.id = m.id
    · simp [replaceFirstById, ha] at h
      rcases h with rfl | htl
      · exact Or.inr rfl
      · exact Or.inl (by simp [htl])
    · simp [replaceFirstById, ha] at h
      rcases h with rfl | htl
      · exact Or.inl (by simp)
      · rcases ih htl with hl | he
        · exact Or.inl (by simp [hl])
        · exact Or.inr he

lemma updateMemory_allStatus {store : List Memory} {m : Memory}
    (h : allStatusSome store) (hm : m.status.isSome = true) :
    allStatusSome (updateMemory store m) := by
  rw [updateMemory_eq_replaceFirstById m h]
  intro r hr
  rcases replaceFirstById_mem_cases hr with hl | rfl
  · exact h r hl
  · exact hm

lemma updateMemory_map_id {store : List Memory} (m : Memory)
    (h : allStatusSome store) :
    (updateMemory store m).map Memory.id = store.map Memory.id := by
  rw [updateMemory_eq_replaceFirstById m h, replaceFirstById_map_id]

lemma updateMemory_mem_of_ne {store : List Memory} {r m : Memory}
    (h : allStatusSome store) (hr : r ∈ store) (hne : r.id ≠ m.id) :
    r ∈ updateMemory store m := by
  rw [updateMemory_eq_replaceFirstById m h]
  exact replaceFirstById_mem_of_ne hr hne

lemma updateMemory_self_mem {store : List Memory} {m : Memory}
    (h : allStatusSome store) (hid : m.id ∈ store.map Memory.id) :
    m ∈ updateMemory store m := by
  rw [updateMemory_eq_replaceFirstById m h]
  exact replaceFirstById_self_mem hid

lemma reconcileWith_id (mem : Memory) (res : ExtractResult) :
    (reconcileWith mem res).id = mem.id := rfl

lemma reconcileWith_status (mem : Memory) (res : ExtractResult) :
    (reconcileWith mem res).status = some Status.processed := rfl

lemma reconcileOne_eq_some {extract : ExtractClient} {mem : Memory}
    {res : ExtractResult} (h : extract (extractInputFor mem) = some res) :
    reconcileOne extract mem = some (reconcileWith mem res) := by
  simp [reconcileOne, h]

lemma reconcileOne_eq_none {extract : ExtractClient} {mem : Memory}
    (h : extract (extractInputFor mem) = none) :
    reconcileOne extract mem = none := by
  simp [reconcileOne, h]

lemma foldUpdates_nil (extract : ExtractClient) (store : List Memory) :
    foldUpdates extract store [] = store := rfl

lemma foldUpdates_cons_some {extract : ExtractClient} {mem : Memory}
    {u : Memory} (hrec : reconcileOne extract mem = some u)
    (store : List Memory) (mems : List Memory) :
    foldUpdates extract store (mem :: mems) =
      foldUpdates extract (updateMemory store u) mems := by
  simp [foldUpdates, hrec]

lemma foldUpdates_cons_none {extract : ExtractClient} {mem : Memory}
    (hrec : reconcileOne extract mem = none)
    (store : List Memory) (mems : List Memory) :
    foldUpdates extract store (mem :: mems) =
      foldUpdates extract store mems := by
  simp [foldUpdates, hrec]

lemma foldUpdates_allStatus (extract : ExtractClient) (mems : List Memory) :
    ∀ store : List Memory, allStatusSome store →
      allStatusSome (foldUpdates extract store mems) := by
  induction mems with
  | nil => intro store h; simpa [foldUpdates_nil] using h
  | cons mem rest ih =>
    intro store h
    cases hrec : reconcileOne extract mem with
    | none => rw [foldUpdates_cons_none hrec]; exact ih store h
    | some u =>
      rw [foldUpdates_cons_some hrec]
      have hu : u.status.isSome = true := by
        obtain ⟨res, _, rfl⟩ := Option.map_eq_some'.mp hrec
        rfl
      exact ih _ (updateMemory_allStatus h hu)

lemma foldUpdates_map_id (extract : ExtractClient) (mems : List Memory) :
    ∀ store : List Memory, allStatusSome store →
      (foldUpdates extract store mems).map Memory.id =
        store.map Memory.id := by
  induction mems with
  | nil => intro store _; rw [foldUpdates_nil]
  | cons mem rest ih =>
    intro store h
    cases hrec : reconcileOne extract mem with
    | none => rw [foldUpdates_cons_none hrec]; exact ih store h
    | some u =>
      rw [foldUpdates_cons_some hrec]
      have hu : u.status.isSome = true := by
        obtain ⟨res, _, rfl⟩ := Option.map_eq_some'.mp hrec
        rfl
      rw [ih _ (updateMemory_allStatus h hu), updateMemory_map_id u h]

lemma foldUpdates_mem_of_ne (extract : ExtractClient) (mems : List Memory) :
    ∀ store : List Memory, ∀ r : Memory, allStatusSome store → r ∈ store →
      (∀ q ∈ mems, q.id ≠ r.id) → r ∈ foldUpdates extract store mems := by
  induction mems with
  | nil => intro store r _ hr _; simpa [foldUpdates_nil] using hr
  | cons mem rest ih =>
    intro store r h hr hq
    cases hrec : reconcileOne extract mem with
    | none =>
      rw [foldUpdates_cons_none hrec]
      exact ih store r h hr fun q hqr => hq q (by simp [hqr])
    | some u =>
      rw [foldUpdates_cons_some hrec]
      obtain ⟨res, _, rfl⟩ := Option.map_eq_some'.mp hrec
      have hne : r.id ≠ (reconcileWith mem res).id := by
        rw [reconcileWith_id]
        exact fun he => hq mem (by simp) he.symm
      exact ih _ r (updateMemory_allStatus h rfl)
        (updateMemory_mem_of_ne h hr hne)
        (fun q hqr => hq q (by simp [hqr]))

lemma foldUpdates_reconciled_mem (extract : ExtractClient)
    (mems : List Memory) :
    ∀ store : List Memory, allStatusSome store →
      (mems.map Memory.id).Nodup →
      (∀ q ∈ mems, q.id ∈ store.map Memory.id) →
      (∀ q ∈ mems, (extract (extractInputFor q)).isSome = true) →
      ∀ q ∈ mems, ∃ res, extract (extractInputFor q) = some res ∧
        reconcileWith q res ∈ foldUpdates extract store mems := by
  induction mems with
  | nil => intro store _ _ _ _ q hq; simp at hq
  | cons mem rest ih =>
    intro store hst hnd hin hex q hq
    obtain ⟨res0, hres0⟩ :=
      Option.isSome_iff_exists.mp (hex mem (by simp))
    have hrec : reconcileOne extract mem =
        some (reconcileWith mem res0) := reconcileOne_eq_some hres0
    rw [foldUpdates_cons_some hrec]
    have hst1 : allStatusSome (updateMemory store (reconcileWith mem res0)) :=
      updateMemory_allStatus hst rfl
    have hmap1 : (updateMemory store (reconcileWith mem res0)).map Memory.id =
        store.map Memory.id := updateMemory_map_id _ hst
    rcases List.mem_cons.mp hq with rfl | htl
    · refine ⟨res0, hres0, ?_⟩
      have hmem1 : reconcileWith q res0 ∈
          updateMemory store (reconcileWith q res0) :=
        updateMemory_self_mem hst (by rw [reconcileWith_id]; exact hin q (by simp))
      have hnd2 : (q.id :: rest.map Memory.id).Nodup := by
        rw [List.map_cons] at hnd; exact hnd
      have hnot : q.id ∉ rest.map Memory.id := (List.nodup_cons.mp hnd2).1
      refine foldUpdates_mem_of_ne extract rest _ _ hst1 hmem1 ?_
      intro p hp he
      refine hnot ?_
      rw [← reconcileWith_id q res0, ← he]
      exact List.mem_map_of_mem Memory.id hp
    · refine ih _ hst1 ?_ ?_ (fun p hp => hex p (by simp [hp])) q htl
      · have hnd2 : (mem.id :: rest.map Memory.id).Nodup := by
          rw [List.map_cons] at hnd; exact hnd
        exact (List.nodup_cons.mp hnd2).2
      · intro p hp
        rw [hmap1]
        exact hin p (by simp [hp])

lemma processPendingLoop_store_eq_foldUpdates (extract : ExtractClient)
    (mems : List Memory) :
    ∀ store : List Memory,
      (processPendingLoop extract mems store).store =
        foldUpdates extract store (processPendingLoop extract mems store).calls := by
  induction mems with
  | nil => intro store; rfl
  | cons mem rest ih =>
    intro store
    cases hrec : reconcileOne extract mem with
    | none => simp [processPendingLoop, hrec, foldUpdates_nil, foldUpdates]
    | some u =>
      simp only [processPendingLoop, hrec]
      rw [foldUpdates_cons_some hrec]
      exact ih (updateMemory store u)

lemma processPendingLoop_calls_take (extract : ExtractClient)
    (mems : List Memory) :
    ∀ store : List Memory, ∃ j,
      (processPendingLoop extract mems store).calls = mems.take j := by
  induction mems with
  | nil => intro store; exact ⟨0, rfl⟩
  | cons mem rest ih =>
    intro store
    cases hrec : reconcileOne extract mem with
    | none => exact ⟨1, by simp [processPendingLoop, hrec]⟩
    | some u =>
      obtain ⟨j, hj⟩ := ih (updateMemory store u)
      exact ⟨j + 1, by simp [processPendingLoop, hrec, hj]⟩

lemma processPendingLoop_abort (extract : ExtractClient)
    (good : List Memory) (bad : Memory) (rest : List Memory)
    (hgood : ∀ q ∈ good, (extract (extractInputFor q)).isSome = true)
    (hbad : extract (extractInputFor bad) = none) :
    ∀ store : List Memory,
      processPendingLoop extract (good ++ bad :: rest) store =
        ⟨foldUpdates extract store good, 1, good ++ [bad]⟩ := by
  induction good with
  | nil =>
    intro store
    simp [processPendingLoop, reconcileOne_eq_none hbad, foldUpdates_nil]
  | cons q good2 ih =>
    intro store
    obtain ⟨res, hres⟩ :=
      Option.isSome_iff_exists.mp (hgood q (by simp))
    have hrec : reconcileOne extract q = some (reconcileWith q res) :=
      reconcileOne_eq_some hres
    have ih2 := ih (fun p hp => hgood p (by simp [hp]))
      (updateMemory store (reconcileWith q res))
    simp only [List.cons_append, processPendingLoop, hrec, List.append_eq, ih2]
    rw [foldUpdates_cons_some hrec]

lemma handleBatchProcess_empty {memories : List Memory}
    (h : pendingFilter memories = []) :
    handleBatchProcess extract memories = ⟨memories, 0, []⟩ := by
  simp [handleBatchProcess, h]

lemma handleBatchProcess_run {extract : ExtractClient}
    {memories : List Memory} (h : pendingFilter memories ≠ []) :
    handleBatchProcess extract memories =
      processPendingLoop extract (pendingFilter memories) memories := by
  simp [handleBatchProcess, List.isEmpty_iff, h]

lemma mem_pendingFilter {memories : List Memory} {m : Memory} :
    m ∈ pendingFilter memories ↔
      m ∈ memories ∧ m.status = some Status.pending := by
  simp [pendingFilter]

lemma mem_processedMemories {memories : List Memory} {m : Memory} :
    m ∈ processedMemories memories ↔
      m ∈ memories ∧ m.status = some Status.processed := by
  simp [processedMemories]

lemma pendingFilter_map_id_nodup {memories : List Memory}
    (h : (memories.map Memory.id).Nodup) :
    ((pendingFilter memories).map Memory.id).Nodup :=
  List.Nodup.sublist (List.Sublist.map _ (List.filter_sublist memories)) h

/-- C1: if the extraction call fails on the k-th pending record (1-indexed,
in collection order) of a batch of n pending records, then after the run
aborts the first k-1 pending records are persisted as processed with their
extraction results, the records k..n are still present unchanged with
status pending, exactly one user-facing failure alert is raised, and the
stored collection still holds exactly the original record ids. -/
theorem c1_batch_abort_order (extract : ExtractClient)
    (memories : List Memory) (k : Nat)
    (hids : (memories.map Memory.id).Nodup)
    (hst : allStatusSome memories)
    (hk1 : 1 ≤ k) (hkn : k ≤ (pendingFilter memories).length)
    (hgood : ∀ p ∈ (pendingFilter memories).take (k - 1),
      (extract (extractInputFor p)).isSome = true)
    (hbad : ∀ p ∈ ((pendingFilter memories).drop (k - 1)).take 1,
      extract (extractInputFor p) = none) :
    (handleBatchProcess extract memories).alerts = 1 ∧
    (∀ p ∈ (pendingFilter memories).take (k - 1), ∃ res,
      extract (extractInputFor p) = some res ∧
      reconcileWith p res ∈ (handleBatchProcess extract memories).store ∧
      (reconcileWith p res).status = some Status.processed) ∧
    (∀ p ∈ (pendingFilter memories).drop (k - 1),
      p ∈ (handleBatchProcess extract memories).store ∧
      p.status = some Status.pending) ∧
    (handleBatchProcess extract memories).store.map Memory.id =
      memories.map Memory.id := by
  set ps := pendingFilter memories with hps
  have hlt : k - 1 < ps.length := by omega
  have hdrop : ps.drop (k - 1) = ps[k - 1] :: ps.drop k := by
    rw [List.drop_eq_getElem_cons hlt]
    have hplus : k - 1 + 1 = k := by omega
    rw [hplus]
  have hsplit : ps.take (k - 1) ++ ps[k - 1] :: ps.drop k = ps := by
    rw [← hdrop, List.take_append_drop]
  have hbadk : extract (extractInputFor ps[k - 1]) = none := by
    apply hbad
    rw [hdrop]
    simp
  have hne : ps ≠ [] := by
    intro h0
    rw [h0] at hkn
    simp at hkn
    omega
  have hrun : handleBatchProcess extract memories =
      processPendingLoop extract ps memories := handleBatchProcess_run hne
  have habort := processPendingLoop_abort extract (ps.take (k - 1))
    (ps[k - 1]) (ps.drop k) hgood hbadk memories
  rw [hsplit] at habort
  rw [hrun, habort]
  have hpsnd : (ps.map Memory.id).Nodup := pendingFilter_map_id_nodup hids
  have htnd : ((ps.take (k - 1)).map Memory.id).Nodup :=
    List.Nodup.sublist (List.Sublist.map _ (List.take_sublist _ _)) hpsnd
  have hdisj : ∀ q ∈ ps.take (k - 1), ∀ p ∈ ps.drop (k - 1), q.id ≠ p.id := by
    have hsp : ps.map Memory.id =
        (ps.take (k - 1)).map Memory.id ++ (ps.drop (k - 1)).map Memory.id := by
      rw [← List.map_append, List.take_append_drop]
    rw [hsp] at hpsnd
    obtain ⟨-, -, hd⟩ := List.nodup_append.mp hpsnd
    intro q hq p hp he
    exact hd (List.mem_map_of_mem _ hq) (he ▸ List.mem_map_of_mem _ hp)
  have hin : ∀ q ∈ ps.take (k - 1), q.id ∈ memories.map Memory.id := by
    intro q hq
    exact List.mem_map_of_mem _
      (mem_pendingFilter.mp (List.mem_of_mem_take hq)).1
  refine ⟨rfl, ?_, ?_, ?_⟩
  · intro p hp
    obtain ⟨res, hres, hmem⟩ := foldUpdates_reconciled_mem extract
      (ps.take (k - 1)) memories hst htnd hin hgood p hp
    exact ⟨res, hres, hmem, rfl⟩
  · intro p hp
    have hpps : p ∈ ps := List.mem_of_mem_drop hp
    refine ⟨?_, (mem_pendingFilter.mp hpps).2⟩
    exact foldUpdates_mem_of_ne extract (ps.take (k - 1)) memories p hst
      (mem_pendingFilter.mp hpps).1 (fun q hq => hdisj q hq p hp)
  · exact foldUpdates_map_id extract (ps.take (k - 1)) memories hst

/-- C5: batch reconciliation is idempotent for already-processed records:
an invocation submits only memories taken from the pending filter (an initial segment
of it, in collection order), never submits the same record twice, leaves
every record with status processed in the store unchanged, and performs no
work at all on a collection without pending records. -/
theorem c5_batch_idempotent (extract : ExtractClient)
    (memories : List Memory)
    (hids : (memories.map Memory.id).Nodup)
    (hst : allStatusSome memories) :
    (∃ j, (handleBatchProcess extract memories).calls =
      (pendingFilter memories).take j) ∧
    (∀ p ∈ (handleBatchProcess extract memories).calls,
      p.status = some Status.pending) ∧
    (handleBatchProcess extract memories).calls.Nodup ∧
    (∀ p ∈ memories, p.status = some Status.processed →
      p ∈ (handleBatchProcess extract memories).store) ∧
    (pendingFilter memories = [] →
      handleBatchProcess extract memories = ⟨memories, 0, []⟩) := by
  by_cases hps : pendingFilter memories = []
  · rw [handleBatchProcess_empty hps]
    refine ⟨⟨0, by simp⟩, ?_, by simp, ?_, fun _ => rfl⟩
    · intro p hp
      simp at hp
    · intro p hp _
      exact hp
  · rw [handleBatchProcess_run hps]
    obtain ⟨j, hj⟩ := processPendingLoop_calls_take extract
      (pendingFilter memories) memories
    have hstore := processPendingLoop_store_eq_foldUpdates extract
      (pendingFilter memories) memories
    refine ⟨⟨j, hj⟩, ?_, ?_, ?_, fun h0 => absurd h0 hps⟩
    · intro p hp
      rw [hj] at hp
      exact (mem_pendingFilter.mp (List.mem_of_mem_take hp)).2
    · rw [hj]
      exact List.Nodup.sublist (List.take_sublist _ _)
        (List.Nodup.of_map _ (pendingFilter_map_id_nodup hids))
    · intro p hp hproc
      rw [hstore]
      apply foldUpdates_mem_of_ne extract _ memories p hst hp
      intro q hq he
      rw [hj] at hq
      have hqp : q ∈ pendingFilter memories := List.mem_of_mem_take hq
      have hqe : q = p :=
        List.inj_on_of_nodup_map hids (mem_pendingFilter.mp hqp).1 hp he
      have hpend : p.status = some Status.pending := by
        rw [← hqe]
        exact (mem_pendingFilter.mp hqp).2
      rw [hproc] at hpend
      exact Status.noConfusion (Option.some.inj hpend)

lemma getMemories_saveMemory (store : List Memory) (m : Memory) :
    getMemories (saveMemory store m) =
      normalizeStatus m :: getMemories store := by
  simp [saveMemory, getMemories, List.map_map, Function.comp_def,
    normalizeStatus_idem]

lemma getMemories_congr_applyOp {s t : List Memory}
    (h : getMemories s = getMemories t) (op : StoreOp) :
    getMemories (applyOp s op) = getMemories (specApplyOp t op) := by
  cases op with
  | insert m =>
    show getMemories (saveMemory s m) = getMemories (m :: t)
    rw [getMemories_saveMemory, h]
    rfl
  | updateById m =>
    show getMemories (updateMemory s m) = getMemories (replaceFirstById t m)
    have hr : getMemories (replaceFirstById t m) =
        replaceFirstById (getMemories t) (normalizeStatus m) := by
      rw [getMemories, replaceFirstById_map normalizeStatus_id]
      rfl
    rw [getMemories_updateMemory_gen, h, hr]
  | clearAll => rfl

lemma applyOps_spec (ops : List StoreOp) :
    ∀ s t : List Memory, getMemories s = getMemories t →
      getMemories (applyOps s ops) = getMemories (specApplyOps t ops) := by
  induction ops with
  | nil => intro s t h; exact h
  | cons op ops ih =>
    intro s t h
    show getMemories (applyOps (applyOp s op) ops) =
      getMemories (specApplyOps (specApplyOp t op) ops)
    exact ih _ _ (getMemories_congr_applyOp h op)

/-- C4: for every initial store and every finite sequence of
insert / updateById / clearAll calls applied in order, a subsequent
getAll returns exactly what the specified effects of the sequence
(insert prepends, updateById fully replaces by id, clearAll empties),
applied in order to the initial collection and viewed through the
missing-status-reads-as-processed rule, produce; writes are never merged. -/
theorem c4_adapter_sequencing (store : List Memory) (ops : List StoreOp) :
    getMemories (applyOps store ops) = specRead (specApplyOps store ops) := by
  have h : specRead (specApplyOps store ops) =
      getMemories (specApplyOps store ops) := rfl
  rw [h]
  exact applyOps_spec ops store store rfl

/-- C9: updateById fully replaces the single record whose id matches,
leaving every record with a different id unchanged in place (stated through
the read view as a replaceFirstById equation), and is a complete no-op on
the stored blob when no record carries the id. -/
theorem c9_updateById_replace (store : List Memory) (m : Memory)
    (hm : m.status.isSome = true) :
    getMemories (updateMemory store m) =
      replaceFirstById (getMemories store) m ∧
    ((∀ r ∈ store, r.id ≠ m.id) → updateMemory store m = store) :=
  ⟨getMemories_updateMemory hm, fun h => updateMemory_no_match h⟩

/-- C10: every record returned by getMemories carries a defined status;
a stored record without a status field comes back with status processed,
and a record with an explicit status comes back unchanged. -/
theorem c10_read_status_defined (store : List Memory) :
    (∀ m ∈ getMemories store, m.status.isSome = true) ∧
    (∀ m ∈ store, m.status = none →
      { m with status := some Status.processed } ∈ getMemories store) ∧
    (∀ m ∈ store, m.status.isSome = true → m ∈ getMemories store) := by
  refine ⟨allStatusSome_getMemories store, ?_, ?_⟩
  · intro m hm h0
    have he : normalizeStatus m = { m with status := some Status.processed } := by
      simp [normalizeStatus, h0]
    rw [← he]
    exact List.mem_map_of_mem _ hm
  · intro m hm h
    have h2 : normalizeStatus m ∈ getMemories store :=
      List.mem_map_of_mem _ hm
    rwa [normalizeStatus_of_isSome h] at h2

/-- C3: whenever handleSearch actually performs a search, the corpus handed
to semanticSearch contains no pending record: it is exactly the subset of
the collection with status processed. -/
theorem c3_search_corpus (text : String) (memories : List Memory)
    (args : String × List Memory)
    (h : handleSearchCall text memories = some args) :
    (∀ m ∈ args.2, m.status ≠ some Status.pending) ∧
    (∀ m : Memory, m ∈ args.2 ↔
      m ∈ memories ∧ m.status = some Status.processed) := by
  unfold handleSearchCall at h
  by_cases ht : jsTrim text = ""
  · simp [ht] at h
  · simp only [ht, if_false, Option.some.injEq] at h
    subst h
    constructor
    · intro m hm
      have hp := (mem_processedMemories.mp hm).2
      simp [hp]
    · intro m
      exact mem_processedMemories

/-- C6: a successful reconciliation of a pending audio record keeps its
audioData, mimeType, id, rawContent and timestamp unchanged and replaces
exactly processedContent, tags and status; the audio is never discarded. -/
theorem c6_audio_preserved (extract : ExtractClient) (mem : Memory)
    (res : ExtractResult)
    (hpend : mem.status = some Status.pending)
    (haud : mem.audioData.isSome = true)
    (hmime : mem.mimeType.isSome = true)
    (hres : extract (extractInputFor mem) = some res) :
    reconcileOne extract mem = some (reconcileWith mem res) ∧
    (reconcileWith mem res).audioData = mem.audioData ∧
    (reconcileWith mem res).mimeType = mem.mimeType ∧
    (reconcileWith mem res).id = mem.id ∧
    (reconcileWith mem res).rawContent = mem.rawContent ∧
    (reconcileWith mem res).timestamp = mem.timestamp ∧
    (reconcileWith mem res).processedContent = res.processedContent ∧
    (reconcileWith mem res).tags = res.tags ∧
    (reconcileWith mem res).status = some Status.processed :=
  ⟨reconcileOne_eq_some hres, rfl, rfl, rfl, rfl, rfl, rfl, rfl, rfl⟩

/-- C7: generateSuggestions on the empty memory list returns exactly the
fixed static trio without invoking the remote endpoint, and when the remote
suggestion call fails (the promise rejects) the component shows the three
generic fallback suggestions instead of surfacing an error. -/
theorem c7_suggestion_fallbacks (llm : SuggestClient)
    (memories : List Memory)
    (hne : memories.length ≠ 0)
    (hthrow : llm (memories.take 10) = SuggestOutcome.throws) :
    (∀ llm2 : SuggestClient,
      generateSuggestions llm2 [] = (Except.ok staticSuggestions, none)) ∧
    staticSuggestions.length = 3 ∧
    smartSuggestionsLoad llm memories = fallbackSuggestions ∧
    fallbackSuggestions.length = 3 := by
  refine ⟨fun llm2 => rfl, rfl, ?_, rfl⟩
  have hpos : memories.length > 0 := Nat.pos_of_ne_zero hne
  simp [smartSuggestionsLoad, generateSuggestions, hne, hthrow, hpos]

/-- C8 (amended): whenever the remote suggestion endpoint is invoked, the
memory list it receives is the first ten entries of the processed-status
subset of the collection: at most ten records, every one of them with
status processed. -/
theorem c8_suggestion_input (llm : SuggestClient) (memories : List Memory)
    (inp : List Memory)
    (h : (appSuggestionCall llm memories).2 = some inp) :
    inp = (processedMemories memories).take 10 ∧
    inp.length ≤ 10 ∧
    (∀ m ∈ inp, m.status = some Status.processed) := by
  have hmain : inp = (processedMemories memories).take 10 := by
    unfold appSuggestionCall generateSuggestions at h
    by_cases h0 : (processedMemories memories).length = 0
    · simp [h0] at h
    · cases hc : llm ((processedMemories memories).take 10) with
      | throws => simp [h0, hc] at h; exact h.symm
      | noText => simp [h0, hc] at h; exact h.symm
      | ok strs => simp [h0, hc] at h; exact h.symm
  refine ⟨hmain, ?_, ?_⟩
  · rw [hmain]
    exact List.length_take_le _ _
  · intro m hm
    rw [hmain] at hm
    exact (mem_processedMemories.mp (List.mem_of_mem_take hm)).2

/-- Concrete pending text record of the C2 scenario. -/
def memC2 : Memory :=
  { id := "m1", rawContent := "买牛奶", processedContent := "买牛奶",
    timestamp := 0, tags := {}, status := some Status.pending }

/-- Tag map returned by the extraction client in the C2 scenario. -/
def tagsC2 : MetaTags := { object := some ["牛奶"] }

/-- Extraction client of the C2 scenario. -/
def extractC2 : ExtractClient :=
  fun _ => some { processedContent := "购买牛奶", tags := tagsC2 }

/-- The reconciled record of the C2 scenario. -/
def memC2done : Memory :=
  { memC2 with
      processedContent := "购买牛奶",
      tags := tagsC2,
      status := some Status.processed }

/-- C2: capturing the text 买牛奶 stores a pending record whose
processedContent equals the raw text; batch reconciliation with a client
returning 购买牛奶 and tags Object = [牛奶] leaves that record processed
with the new content and tags. -/
theorem c2_scenario :
    handleTextSubmit "买牛奶" "m1" 0 [] = [memC2] ∧
    memC2.status = some Status.pending ∧
    memC2.processedContent = "买牛奶" ∧
    (handleBatchProcess extractC2
      (getMemories (handleTextSubmit "买牛奶" "m1" 0 []))).store = [memC2done] ∧
    memC2done.status = some Status.processed ∧
    memC2done.processedContent = "购买牛奶" ∧
    memC2done.tags.object = some ["牛奶"] := by
  decide

/-- Pending record indexed by position, used by the C8 counterexample. -/
def c8pending (n : Nat) : Memory :=
  { id := "p" ++ toString n, rawContent := "待办", processedContent := "待办",
    timestamp := 20 - (n : Int), tags := {}, status := some Status.pending }

/-- An old processed record, the eleventh entry of the C8 collection. -/
def c8old : Memory :=
  { id := "old", rawContent := "早", processedContent := "早",
    timestamp := 1, tags := {}, status := some Status.processed }

/-- Timestamp-descending collection with ten pending records followed by
one processed record. -/
def memsC8 : List Memory := (List.range 10).map c8pending ++ [c8old]

/-- Suggestion oracle used by the C8 counterexample. -/
def c8llm : SuggestClient := fun _ => SuggestOutcome.ok []

/-- C8 counterexample: on a collection of ten pending records followed by
one processed record, the suggestion call receives only the processed
record, which is not among the first ten memories of the collection, so the
input is not the first ten memories of the collection regardless of status. -/
theorem c8_input_not_first_ten :
    (appSuggestionCall c8llm memsC8).2 = some [c8old] ∧
    c8old ∉ memsC8.take 10 ∧
    (appSuggestionCall c8llm memsC8).2 ≠ some (memsC8.take 10) := by
  decide

/-- Witness data: two pending text records with distinct ids. -/
def w1a : Memory :=
  { id := "a", rawContent := "alpha", processedContent := "alpha",
    timestamp := 2, tags := {}, status := some Status.pending }

/-- Second pending witness record. -/
def w1b : Memory :=
  { id := "b", rawContent := "beta", processedContent := "beta",
    timestamp := 1, tags := {}, status := some Status.pending }

/-- Witness extraction result. -/
def w1res : ExtractResult := { processedContent := "ALPHA", tags := {} }

/-- Witness extraction client: succeeds on the first record, fails on the
second. -/
def w1extract : ExtractClient := fun inp =>
  match inp with
  | ExtractInput.text "alpha" _ => some w1res
  | _ => none

/-- Witness for C1 at a two-record batch failing on the second record. -/
theorem c1_batch_abort_order_witness :
    (handleBatchProcess w1extract [w1a, w1b]).alerts = 1 :=
  (c1_batch_abort_order w1extract [w1a, w1b] 2 (by decide)
    (show ∀ r ∈ [w1a, w1b], r.status.isSome = true by decide)
    (by decide) (by decide) (by decide) (by decide)).1

/-- Witness for C5 at the same two-record batch. -/
theorem c5_batch_idempotent_witness :
    (handleBatchProcess w1extract [w1a, w1b]).calls.Nodup :=
  (c5_batch_idempotent w1extract [w1a, w1b] (by decide)
    (show ∀ r ∈ [w1a, w1b], r.status.isSome = true by decide)).2.2.1

/-- Processed record with a fresh id, used by the C9 witness. -/
def w9 : Memory :=
  { id := "zz", rawContent := "z", processedContent := "z",
    timestamp := 9, tags := {}, status := some Status.processed }

/-- Witness for C9: updating an absent id leaves the blob untouched. -/
theorem c9_updateById_replace_witness : updateMemory [w1a] w9 = [w1a] :=
  (c9_updateById_replace [w1a] w9 rfl).2 (by decide)

/-- Legacy record without a status field, used by the C10 witness. -/
def w10 : Memory :=
  { id := "legacy", rawContent := "旧数据", processedContent := "旧数据",
    timestamp := 7, tags := {} }

/-- Witness for C10: the legacy record reads back as processed. -/
theorem c10_read_status_defined_witness :
    { w10 with status := some Status.processed } ∈ getMemories [w10] :=
  (c10_read_status_defined [w10]).2.1 w10 (by decide) rfl

/-- Pending record used by the C3 witness collection. -/
def w3pend : Memory :=
  { id := "s1", rawContent := "x", processedContent := "x",
    timestamp := 1, tags := {}, status := some Status.pending }

/-- Processed record used by the C3 witness collection. -/
def w3proc : Memory :=
  { id := "s2", rawContent := "y", processedContent := "y",
    timestamp := 2, tags := {}, status := some Status.processed }

/-- Witness for C3: the record reaching the search corpus is not pending. -/
theorem c3_search_corpus_witness : w3proc.status ≠ some Status.pending :=
  (c3_search_corpus "你好" [w3pend, w3proc] ("你好", [w3proc])
    (by decide)).1 w3proc (by decide)

/-- Pending audio record used by the C6 witness. -/
def w6 : Memory :=
  { id := "v1", rawContent := "[语音记录]",
    processedContent := "[语音记录] (待整理)", timestamp := 3, tags := {},
    status := some Status.pending, audioData := some "QUJD",
    mimeType := some "audio/webm" }

/-- Extraction result used by the C6 witness. -/
def w6res : ExtractResult := { processedContent := "开会", tags := {} }

/-- Extraction client used by the C6 witness. -/
def w6extract : ExtractClient := fun _ => some w6res

/-- Witness for C6: reconciliation keeps the audio payload. -/
theorem c6_audio_preserved_witness :
    (reconcileWith w6 w6res).audioData = w6.audioData :=
  (c6_audio_preserved w6extract w6 w6res rfl rfl rfl rfl).2.1

/-- Always-throwing suggestion oracle used by the C7 witness. -/
def w7llm : SuggestClient := fun _ => SuggestOutcome.throws

/-- Witness for C7: a rejected suggestion call yields the fallback trio. -/
theorem c7_suggestion_fallbacks_witness :
    smartSuggestionsLoad w7llm [w1a] = fallbackSuggestions :=
  (c7_suggestion_fallbacks w7llm [w1a] (by decide) rfl).2.2.1

/-- Witness for the amended C8 at the eleven-record collection. -/
theorem c8_suggestion_input_witness : c8old.status = some Status.processed :=
  (c8_suggestion_input c8llm memsC8 [c8old] (by decide)).2.2 c8old (by decide)

end FlashMemo
